import Mathlib

set_option maxRecDepth 8000

/-!
Verification of the morphology-similarity distance pipeline.

The repository computes pairwise distances between 2D morphology images:
connected components are extracted and labeled, each component is assigned a
scalar signature, a region adjacency graph (RAG) is built, linearized to a
vector by breadth-first traversal, and two such vectors are padded to equal
length and compared by a vector norm.

Images are embedded as lists of rows of rational pixel values.  The functions
`generate_region_adjacency_graph`, `generate_bfs_vector` and
`generate_padded_vectors` are referenced by the similarity code but are not
present in the source tree; the first two are abstracted as a deterministic
function from a morphology to its vector (written as the parameter named
ragVec below), and the padding function is modelled from the spec.
-/

namespace MorphSim

/-- An image (or a component mask) is a 2D grid of rational pixel values,
stored as a list of rows. -/
abbrev Image := List (List ℚ)

/-- Modelled from the spec: the function generate_padded_vectors is called by
compute_distance but missing from the source tree.  Per the spec, every input
vector is extended on the right with the neutral fill value 0 up to the
maximum input length.  This is the common padding length. -/
def padLen (vs : List (List ℚ)) : ℕ :=
  (vs.map List.length).foldr max 0

/-- Modelled from the spec: generate_padded_vectors extends every vector on
the right with zeros to the maximum input length, preserving original element
order and position. -/
def generate_padded_vectors (vs : List (List ℚ)) : List (List ℚ) :=
  vs.map fun v => v ++ List.replicate (padLen vs - v.length) 0

/-- The 1-norm of a vector, as computed by np.linalg.norm(x, 1) on a
one-dimensional input: the sum of absolute values. -/
def norm1 (v : List ℚ) : ℚ :=
  (v.map abs).sum

/-- compute_distance from processing/similarity.py.  For macro method BFS it
builds the RAG of each image, linearizes both to vectors, pads the pair to a
common length, and returns the 1-norm of the element-wise difference; for any
other macro method the function body ends without a return statement, so
Python returns None (modelled as Option.none).  The pipeline image-to-vector
(get_rag composed with generate_bfs_vector, for a fixed signature and cache
state) is deterministic in the image, and is abstracted as ragVec. -/
def compute_distance {M : Type} (ragVec : M → List ℚ)
    (image1 image2 : M) (macroMethod : String) : Option ℚ :=
  if macroMethod = "BFS" then
    some (norm1 (List.zipWith (fun a b => a - b)
      ((generate_padded_vectors [ragVec image1, ragVec image2]).getD 0 [])
      ((generate_padded_vectors [ragVec image1, ragVec image2]).getD 1 [])))
  else
    none

/-- get_distance_matrix from processing/similarity.py: a nested loop over the
morphology list; cell (i, j) holds compute_distance of the pair of images read
from files i and j.  Reading a file and converting it to grayscale is a
deterministic function of the filename, so it is absorbed into ragVec. -/
def get_distance_matrix {M : Type} (ragVec : M → List ℚ)
    (morphologies : List M) (macroMethod : String) : List (List (Option ℚ)) :=
  morphologies.map fun m1 =>
    morphologies.map fun m2 => compute_distance ragVec m1 m2 macroMethod

lemma padLen_pair (v w : List ℚ) :
    padLen [v, w] = max v.length (max w.length 0) := by
  simp [padLen]

lemma generate_padded_vectors_pair (v w : List ℚ) :
    generate_padded_vectors [v, w] =
      [v ++ List.replicate (padLen [v, w] - v.length) 0,
       w ++ List.replicate (padLen [v, w] - w.length) 0] := by
  simp [generate_padded_vectors]

lemma norm1_zipWith_sub_comm (v w : List ℚ) :
    norm1 (List.zipWith (fun a b => a - b) v w) =
      norm1 (List.zipWith (fun a b => a - b) w v) := by
  induction v generalizing w with
  | nil => cases w <;> rfl
  | cons a t ih =>
    cases w with
    | nil => rfl
    | cons b u =>
      simp only [List.zipWith, norm1, List.map_cons, List.sum_cons] at *
      rw [abs_sub_comm, ih u]

lemma compute_distance_self {M : Type} (ragVec : M → List ℚ) (m : M) :
    compute_distance ragVec m m "BFS" = some 0 := by
  unfold compute_distance
  rw [if_pos rfl, generate_padded_vectors_pair]
  simp only [padLen_pair, List.getD_cons_zero, List.getD_cons_succ]
  rw [show max (ragVec m).length (max (ragVec m).length 0) = (ragVec m).length by
        omega]
  simp [norm1, List.map_replicate, List.sum_replicate]

lemma compute_distance_comm {M : Type} (ragVec : M → List ℚ) (a b : M)
    (mm : String) :
    compute_distance ragVec a b mm = compute_distance ragVec b a mm := by
  unfold compute_distance
  by_cases h : mm = "BFS"
  · rw [if_pos h, if_pos h, generate_padded_vectors_pair,
      generate_padded_vectors_pair]
    simp only [padLen_pair, List.getD_cons_zero, List.getD_cons_succ]
    rw [show max (ragVec b).length (max (ragVec a).length 0) =
          max (ragVec a).length (max (ragVec b).length 0) by omega]
    rw [norm1_zipWith_sub_comm]
  · rw [if_neg h, if_neg h]

lemma get_distance_matrix_entry {M : Type} (ragVec : M → List ℚ)
    (X : List M) (mm : String) (i j : ℕ) (hi : i < X.length)
    (hj : j < X.length) :
    ((get_distance_matrix ragVec X mm).getD i []).getD j none =
      compute_distance ragVec X[i] X[j] mm := by
  unfold get_distance_matrix
  have h1 : (List.map
      (fun m1 => List.map (fun m2 => compute_distance ragVec m1 m2 mm) X)
      X).getD i [] =
      List.map (fun m2 => compute_distance ragVec X[i] m2 mm) X := by
    rw [List.getD_eq_getElem _ _ (by simpa using hi), List.getElem_map]
  rw [h1, List.getD_eq_getElem _ _ (by simpa using hj), List.getElem_map]

/-- C1: for every list of morphologies and every deterministic image-to-vector
pipeline, the matrix returned by get_distance_matrix with macro method BFS has
a zero diagonal (each self-pair has distance 0) and is symmetric
(entry (i, j) equals entry (j, i)). -/
theorem C1_distance_matrix_zero_diag_symm {M : Type} (ragVec : M → List ℚ)
    (X : List M) (i j : ℕ) (hi : i < X.length) (hj : j < X.length) :
    ((get_distance_matrix ragVec X "BFS").getD i []).getD i none = some 0 ∧
    ((get_distance_matrix ragVec X "BFS").getD i []).getD j none =
      ((get_distance_matrix ragVec X "BFS").getD j []).getD i none := by
  constructor
  · rw [get_distance_matrix_entry ragVec X "BFS" i i hi hi]
    exact compute_distance_self ragVec _
  · rw [get_distance_matrix_entry ragVec X "BFS" i j hi hj,
      get_distance_matrix_entry ragVec X "BFS" j i hj hi]
    exact compute_distance_comm ragVec _ _ _

theorem C1_distance_matrix_zero_diag_symm_witness :
    (0 < ([0, 1] : List ℕ).length ∧ 1 < ([0, 1] : List ℕ).length) ∧
    (((get_distance_matrix (fun n : ℕ => [(n : ℚ)]) [0, 1] "BFS").getD 0
        []).getD 0 none = some 0 ∧
      ((get_distance_matrix (fun n : ℕ => [(n : ℚ)]) [0, 1] "BFS").getD 0
        []).getD 1 none =
        ((get_distance_matrix (fun n : ℕ => [(n : ℚ)]) [0, 1] "BFS").getD 1
          []).getD 0 none) :=
  ⟨⟨by decide, by decide⟩,
    C1_distance_matrix_zero_diag_symm (fun n : ℕ => [(n : ℚ)]) [0, 1] 0 1
      (by decide) (by decide)⟩

/-- C5 counterexample: at the concrete macro method XYZ, compute_distance
returns None (falls through the single if statement with no return), rather
than failing with an UnknownMacroMethod error: the claimed fail-fast behavior
does not exist in the code. -/
theorem C5_counterexample :
    compute_distance (fun _ : Unit => []) () () "XYZ" = none := rfl

/-- C5 amended: for every macro method other than BFS, compute_distance
performs no image processing and returns None (no value is computed and no
error is raised). -/
theorem C5_unknown_macro_returns_none {M : Type} (ragVec : M → List ℚ)
    (image1 image2 : M) (mm : String) (h : mm ≠ "BFS") :
    compute_distance ragVec image1 image2 mm = none := by
  unfold compute_distance
  rw [if_neg h]

theorem C5_unknown_macro_returns_none_witness :
    "XYZ" ≠ "BFS" ∧
      compute_distance (fun _ : Unit => []) () () "XYZ" = none :=
  ⟨by decide, C5_unknown_macro_returns_none (fun _ : Unit => []) () () "XYZ"
    (by decide)⟩

/-! The cache layer of get_rag (claim C6).  The on-disk pickle file for a
cache key is in one of three observable states, and pickle.load(open(path))
raises IOError when the file is missing or unopenable and UnpicklingError
when the file opens but its content does not unpickle. -/

/-- Python exceptions relevant to get_rag: IOError (OSError) from open, and
pickle.UnpicklingError from pickle.load on corrupt content. -/
inductive PyErr
  | ioErr
  | unpicklingErr
deriving DecidableEq

/-- Observable state of the on-disk cache entry for a given key: the file is
missing or unopenable, the file opens but its content is corrupt, or it holds
a valid pickled RAG. -/
inductive CacheState (G : Type)
  | absent
  | corrupt
  | good (g : G)

/-- pickle.load(open(location, rb)): a missing or unopenable file raises
IOError; readable but corrupt content raises UnpicklingError; otherwise the
stored object is returned. -/
def pickle_load {G : Type} : CacheState G → Except PyErr G
  | .absent => .error .ioErr
  | .corrupt => .error .unpicklingErr
  | .good g => .ok g

/-- get_rag from processing/similarity.py.  The try block returns
pickle.load of the cache file when CACHE_ENABLED and a cache key is given,
and raises IOError otherwise; the except clause catches IOError only,
recomputes the RAG and, when a cache key is given, writes it back with
pickle.dump before returning it.  An exception raised inside the except
block (here, a failing cache write, modelled by writeOk = false) propagates.
The recomputation generate_region_adjacency_graph(image, signature) is
absent from the source tree and is abstracted as the value computed. -/
def get_rag {G : Type} (cacheEnabled : Bool) (store : CacheState G)
    (writeOk : Bool) (computed : G) (cacheKey : Option String) :
    Except PyErr G :=
  match (if cacheEnabled && cacheKey.isSome then pickle_load store
         else .error .ioErr : Except PyErr G) with
  | .ok g => .ok g
  | .error e =>
    if e = .ioErr then
      if cacheKey.isSome then
        if writeOk then .ok computed else .error .ioErr
      else .ok computed
    else .error e

/-- C6 counterexample: with caching enabled and a cache key, a corrupt cache
entry aborts get_rag with UnpicklingError (only IOError is caught), and a
failing cache write aborts get_rag with IOError instead of returning the
freshly computed RAG — both contradicting the claim that these situations
are non-fatal. -/
theorem C6_counterexample :
    get_rag true (CacheState.corrupt : CacheState ℕ) true 42 (some "k") =
      .error .unpicklingErr ∧
    get_rag true (CacheState.absent : CacheState ℕ) false 42 (some "k") =
      .error .ioErr ∧
    (Except.error PyErr.unpicklingErr : Except PyErr ℕ) ≠ .ok 42 ∧
    (Except.error PyErr.ioErr : Except PyErr ℕ) ≠ .ok 42 := by
  refine ⟨rfl, rfl, ?_, ?_⟩ <;> intro h <;> exact Except.noConfusion h

/-- C6 amended: only a missing or unopenable cache file (IOError) is treated
as a cache miss: then the RAG is recomputed, and returned provided the cache
write succeeds (or no cache key was given, in which case no write is
attempted).  A corrupt-but-readable entry aborts with UnpicklingError, and a
failing cache write aborts with IOError. -/
theorem C6_cache_error_behavior {G : Type} (computed : G) (k : String)
    (w cacheEnabled : Bool) (st : CacheState G) :
    get_rag cacheEnabled st true computed none = .ok computed ∧
    get_rag true CacheState.absent true computed (some k) = .ok computed ∧
    get_rag true CacheState.absent false computed (some k) =
      .error .ioErr ∧
    get_rag true CacheState.corrupt w computed (some k) =
      .error .unpicklingErr := by
  refine ⟨?_, rfl, rfl, by cases w <;> rfl⟩
  cases cacheEnabled <;> rfl

/-! Ratio signatures on degenerate components (claim C7).  numpy division of
two integer counts is float division: dividing a positive count by zero
yields inf with a runtime warning, and 0/0 yields nan; no exception is
raised. -/

/-- Result of a numpy scalar division: a finite value, or the special
floating values inf, -inf, nan produced by division by zero. -/
inductive NpFloat
  | fin (q : ℚ)
  | inf
  | ninf
  | nan
deriving DecidableEq

/-- numpy division semantics on rationals: b = 0 gives nan for a = 0, inf
for a > 0 and -inf for a < 0 (with a RuntimeWarning, not an exception);
otherwise the exact quotient. -/
def npDiv (a b : ℚ) : NpFloat :=
  if b = 0 then
    if a = 0 then .nan else if 0 < a then .inf else .ninf
  else .fin (a / b)

/-- Number of pixels of an image equal to a given value, as np.sum(c == v). -/
def countEq (c : Image) (v : ℚ) : ℕ :=
  (c.map fun row => row.countP fun x => decide (x = v)).sum

/-- pixel_ratio_sig from processing/signatures.py:
np.sum(component == 0) / np.sum(component == 1). -/
def pixel_ratio_sig (c : Image) : NpFloat :=
  npDiv (countEq c 0) (countEq c 1)

/-- surface_volume_ratio_sig from processing/signatures.py:
measure.perimeter(component) / np.sum(component == 1).  The skimage
perimeter is an external collaborator, abstracted as a function argument
returning a nonnegative value. -/
def surface_volume_ratio_sig (perim : Image → ℚ) (c : Image) : NpFloat :=
  npDiv (perim c) (countEq c 1)

/-- C7 counterexample: on the all-background 1×1 component, pixel_ratio_sig
produces inf (1/0) and surface_volume_ratio_sig produces nan (0/0) — the
functions return the special floating values the claim says are never
produced, and no DegenerateComponent error exists in the code. -/
theorem C7_counterexample :
    pixel_ratio_sig [[0]] = NpFloat.inf ∧
    surface_volume_ratio_sig (fun _ => 0) [[0]] = NpFloat.nan := by
  constructor <;> rfl

/-- C7 amended: on a component with zero foreground pixels, the ratio
signatures divide by zero without raising: pixel_ratio_sig yields inf when
the component has at least one background pixel and nan otherwise, and
surface_volume_ratio_sig (for a nonnegative perimeter) yields nan when the
perimeter is zero and inf otherwise; no error value exists. -/
theorem C7_degenerate_ratio_inf_nan (c : Image) (perim : Image → ℚ)
    (h1 : countEq c 1 = 0) (hp : 0 ≤ perim c) :
    pixel_ratio_sig c =
      (if countEq c 0 = 0 then NpFloat.nan else NpFloat.inf) ∧
    surface_volume_ratio_sig perim c =
      (if perim c = 0 then NpFloat.nan else NpFloat.inf) := by
  unfold pixel_ratio_sig surface_volume_ratio_sig npDiv
  rw [h1]
  push_cast
  constructor
  · by_cases h0 : countEq c 0 = 0
    · simp [h0]
    · have : (0 : ℚ) < countEq c 0 := by positivity
      simp [h0, this, Nat.cast_eq_zero, ne_of_gt this]
  · by_cases hq : perim c = 0
    · simp [hq]
    · have : (0 : ℚ) < perim c := lt_of_le_of_ne hp (Ne.symm hq)
      simp [hq, this]

theorem C7_degenerate_ratio_inf_nan_witness :
    (countEq [[(0 : ℚ)]] 1 = 0 ∧ (0 : ℚ) ≤ 0) ∧
    (pixel_ratio_sig [[(0 : ℚ)]] =
        (if countEq [[(0 : ℚ)]] 0 = 0 then NpFloat.nan else NpFloat.inf) ∧
      surface_volume_ratio_sig (fun _ => 0) [[(0 : ℚ)]] =
        (if (fun _ : Image => (0 : ℚ)) [[(0 : ℚ)]] = 0 then NpFloat.nan
         else NpFloat.inf)) :=
  ⟨⟨by decide, by decide⟩,
    C7_degenerate_ratio_inf_nan [[(0 : ℚ)]] (fun _ => 0) (by decide)
      (by decide)⟩

/-! The two revisions of compute_distance (claim C8).  The revision in
processing/similarity.py calls np.linalg.norm(difference, 1), the 1-norm,
while the revision in main/processing/similarity.py calls
np.linalg.norm(difference) with the default order, the Euclidean 2-norm. -/

/-- The Euclidean 2-norm of a rational vector, as computed by
np.linalg.norm(x) with the default order: the square root (over ℝ) of the
sum of squares. -/
noncomputable def norm2 (v : List ℚ) : ℝ :=
  Real.sqrt ((v.map fun a => ((a : ℝ)) ^ 2).sum)

/-- compute_distance from main/processing/similarity.py: identical BFS
pipeline (RAG, BFS vector, padding, element-wise difference), but the final
norm is np.linalg.norm with the default order 2. -/
noncomputable def compute_distance_main {M : Type} (ragVec : M → List ℚ)
    (image1 image2 : M) (macroMethod : String) : Option ℝ :=
  if macroMethod = "BFS" then
    some (norm2 (List.zipWith (fun a b => a - b)
      ((generate_padded_vectors [ragVec image1, ragVec image2]).getD 0 [])
      ((generate_padded_vectors [ragVec image1, ragVec image2]).getD 1 [])))
  else
    none

/-- The common element-wise difference of the padded BFS vectors of the two
images, shared by both revisions. -/
def paddedDiff {M : Type} (ragVec : M → List ℚ) (image1 image2 : M) :
    List ℚ :=
  List.zipWith (fun a b => a - b)
    ((generate_padded_vectors [ragVec image1, ragVec image2]).getD 0 [])
    ((generate_padded_vectors [ragVec image1, ragVec image2]).getD 1 [])

/-- C8 counterexample: with BFS vectors [3, 4] and [0, 0], the
processing revision returns the 1-norm 7 while the main revision returns the
2-norm 5, so the two revisions do not compute the same distance function. -/
theorem C8_counterexample :
    (compute_distance (fun b : Bool => if b then [3, 4] else [0, 0]) true
        false "BFS").map (fun q => (q : ℝ)) ≠
      compute_distance_main (fun b : Bool => if b then [3, 4] else [0, 0])
        true false "BFS" := by
  have hL : compute_distance (fun b : Bool => if b then [3, 4] else [0, 0])
      true false "BFS" = some 7 := by
    unfold compute_distance
    norm_num [generate_padded_vectors, padLen, norm1, List.zipWith]
  have hR : compute_distance_main
      (fun b : Bool => if b then [3, 4] else [0, 0]) true false "BFS" =
      some 5 := by
    unfold compute_distance_main
    rw [if_pos rfl]
    congr 1
    unfold norm2
    norm_num [generate_padded_vectors, padLen, List.zipWith]
    rw [show (25 : ℝ) = 5 ^ 2 by norm_num]
    exact Real.sqrt_sq (by norm_num)
  rw [hL, hR]
  intro h
  simp at h

/-- C8 amended: the BFS branches of the two revisions pad the same pair of
vectors the same way and take the element-wise difference identically, but
the processing revision applies the 1-norm while the main revision applies
the Euclidean 2-norm to that common difference, so their results differ in
general. -/
theorem C8_two_revisions_same_diff_different_norm {M : Type}
    (ragVec : M → List ℚ) (image1 image2 : M) :
    compute_distance ragVec image1 image2 "BFS" =
      some (norm1 (paddedDiff ragVec image1 image2)) ∧
    compute_distance_main ragVec image1 image2 "BFS" =
      some (norm2 (paddedDiff ragVec image1 image2)) := by
  unfold compute_distance compute_distance_main paddedDiff
  exact ⟨by rw [if_pos rfl], by rw [if_pos rfl]⟩

/-! The cropping utility (claims C3, C4).  crop_image computes
mask = image > tolerance and returns image[np.ix_(mask.any(1), mask.any(0))]:
the subarray keeping exactly the rows and exactly the columns that contain at
least one pixel strictly greater than the tolerance. -/

/-- Width of an image: the length of its first row (numpy shape[1] of a
rectangular array). -/
def width (image : Image) : ℕ :=
  (image.headD []).length

/-- A rectangular grid: every row has the width of the first row.  numpy
arrays are rectangular by construction. -/
def Rect (image : Image) : Prop :=
  ∀ row ∈ image, row.length = width image

/-- Pixel accessor with out-of-range default 0. -/
def pix (image : Image) (r c : ℕ) : ℚ :=
  (image.getD r []).getD c 0

/-- Indices of the rows holding at least one pixel strictly above the
tolerance: mask.any(1) of crop_image. -/
def fgRowIdx (image : Image) (tol : ℚ) : List ℕ :=
  (List.range image.length).filter fun r =>
    (image.getD r []).any fun v => decide (tol < v)

/-- Indices of the columns holding at least one pixel strictly above the
tolerance: mask.any(0) of crop_image. -/
def keptCols (image : Image) (tol : ℚ) : List ℕ :=
  (List.range (width image)).filter fun c =>
    image.any fun row => decide (tol < row.getD c 0)

/-- crop_image from processing/utils.py:
image[np.ix_(mask.any(1), mask.any(0))] with mask = image > tolerance;
the rows with a pixel above tolerance, each restricted to the columns with a
pixel above tolerance. -/
def crop_image (image : Image) (tol : ℚ) : Image :=
  (image.filter fun row => row.any fun v => decide (tol < v)).map
    fun row => (keptCols image tol).map fun c => row.getD c 0

/-- Stated from the spec for comparison (claim C3): the smallest axis-aligned
bounding box containing all pixels strictly greater than the tolerance,
preserving every row and column inside the box, and empty when no pixel
exceeds the tolerance. -/
def bbox_crop (image : Image) (tol : ℚ) : Image :=
  if (fgRowIdx image tol).isEmpty then []
  else
    (List.range
        ((fgRowIdx image tol).getLastD 0 + 1 - (fgRowIdx image tol).headD 0)).map
      fun i =>
        (List.range
            ((keptCols image tol).getLastD 0 + 1 -
              (keptCols image tol).headD 0)).map
          fun j =>
            pix image ((fgRowIdx image tol).headD 0 + i)
              ((keptCols image tol).headD 0 + j)

/-- C3 counterexample: on the single-row image [[1, 0, 1]] with tolerance 0,
the bounding box of the two foreground pixels is the whole row [[1, 0, 1]],
but crop_image drops the interior all-background column and returns [[1, 1]],
so crop_image does not return the bounding box. -/
theorem C3_counterexample :
    crop_image [[1, 0, 1]] 0 = [[1, 1]] ∧
    bbox_crop [[1, 0, 1]] 0 = [[1, 0, 1]] ∧
    crop_image [[1, 0, 1]] 0 ≠ bbox_crop [[1, 0, 1]] 0 := by
  refine ⟨by decide, by decide, by decide⟩

/-- Number of pixels of an image strictly above the tolerance. -/
def countFg (image : Image) (tol : ℚ) : ℕ :=
  (image.map fun row => row.countP fun v => decide (tol < v)).sum

lemma mem_keptCols {image : Image} {tol : ℚ} {c : ℕ} :
    c ∈ keptCols image tol ↔
      c < width image ∧ ∃ row ∈ image, tol < row.getD c 0 := by
  simp [keptCols, List.mem_filter, List.mem_range, List.any_eq_true]

lemma crop_row_has_fg (image : Image) (tol : ℚ) (hrect : Rect image) :
    ∀ row ∈ crop_image image tol, ∃ v ∈ row, tol < v := by
  intro row hrow
  unfold crop_image at hrow
  rcases List.mem_map.mp hrow with ⟨row₀, hmemf, rfl⟩
  rcases List.mem_filter.mp hmemf with ⟨hmem, hany⟩
  rcases List.any_eq_true.mp hany with ⟨v, hv, hvt⟩
  rcases List.mem_iff_getElem.mp hv with ⟨c, hc, rfl⟩
  refine ⟨row₀.getD c 0, List.mem_map.mpr ⟨c, ?_, rfl⟩, ?_⟩
  · refine mem_keptCols.mpr ⟨hrect row₀ hmem ▸ hc, row₀, hmem, ?_⟩
    rw [List.getD_eq_getElem _ _ hc]
    exact of_decide_eq_true hvt
  · rw [List.getD_eq_getElem _ _ hc]
    exact of_decide_eq_true hvt

lemma crop_col_has_fg (image : Image) (tol : ℚ) (hrect : Rect image) :
    ∀ j < (keptCols image tol).length, ∃ i < (crop_image image tol).length,
      tol < pix (crop_image image tol) i j := by
  intro j hj
  have hc : (keptCols image tol)[j] ∈ keptCols image tol :=
    List.getElem_mem hj
  rcases mem_keptCols.mp hc with ⟨hlt, row₀, hmem, hfg⟩
  have hcw : (keptCols image tol)[j] < row₀.length := by
    rw [hrect row₀ hmem]; exact hlt
  have hany : row₀.any (fun v => decide (tol < v)) = true := by
    refine List.any_eq_true.mpr ⟨row₀[(keptCols image tol)[j]],
      List.getElem_mem hcw, ?_⟩
    rw [← List.getD_eq_getElem row₀ 0 hcw]
    exact decide_eq_true hfg
  have hmemf : row₀ ∈ image.filter fun row => row.any fun v => decide (tol < v) :=
    List.mem_filter.mpr ⟨hmem, hany⟩
  rcases List.mem_iff_getElem.mp hmemf with ⟨i, hi, hieq⟩
  refine ⟨i, by unfold crop_image; simpa using hi, ?_⟩
  unfold pix crop_image
  have hKi : ((image.filter fun row => row.any fun v => decide (tol < v)).map
      fun row => (keptCols image tol).map fun c => row.getD c 0).getD i [] =
      (keptCols image tol).map fun c => row₀.getD c 0 := by
    rw [List.getD_eq_getElem _ _ (by simpa using hi), List.getElem_map, hieq]
  rw [hKi, List.getD_eq_getElem _ _ (by simpa using hj), List.getElem_map]
  exact hfg

lemma crop_of_no_fg (image : Image) (tol : ℚ)
    (h : ∀ row ∈ image, ∀ v ∈ row, v ≤ tol) : crop_image image tol = [] := by
  unfold crop_image
  have : (image.filter fun row => row.any fun v => decide (tol < v)) = [] := by
    rw [List.filter_eq_nil_iff]
    intro row hrow
    rw [Bool.not_eq_true, List.any_eq_false]
    intro v hv
    simp only [decide_eq_true_eq]
    exact not_lt.mpr (h row hrow v hv)
  rw [this]
  rfl

lemma sum_map_filter_of_zero {α : Type} (l : List α) (p : α → Bool)
    (f : α → ℕ) (h : ∀ a ∈ l, p a = false → f a = 0) :
    ((l.filter p).map f).sum = (l.map f).sum := by
  induction l with
  | nil => rfl
  | cons a t ih =>
    have ht : ∀ b ∈ t, p b = false → f b = 0 := fun b hb =>
      h b (List.mem_cons_of_mem a hb)
    by_cases hp : p a
    · simp [List.filter_cons, hp, ih ht]
    · have hz : f a = 0 := h a (List.mem_cons_self a t) (by simpa using hp)
      simp [List.filter_cons, hp, hz, ih ht]

lemma map_getD_range {α : Type} (l : List α) (d : α) :
    (List.range l.length).map (fun i => l.getD i d) = l := by
  apply List.ext_getElem (by simp)
  intro i h1 h2
  simp only [List.getElem_map, List.getElem_range]
  exact List.getD_eq_getElem l d h2

lemma countP_proj_keptCols (image : Image) (tol : ℚ) (hrect : Rect image)
    (row : List ℚ) (hmem : row ∈ image) :
    (((keptCols image tol).map fun c => row.getD c 0).countP
        fun v => decide (tol < v)) =
      row.countP fun v => decide (tol < v) := by
  rw [List.countP_map]
  unfold keptCols
  rw [List.countP_filter]
  have hcong : ∀ c ∈ List.range (width image),
      (((fun v => decide (tol < v)) ∘ fun c => row.getD c 0) c &&
          image.any fun r => decide (tol < r.getD c 0)) =
        decide (tol < row.getD c 0) := by
    intro c _
    by_cases hfg : tol < row.getD c 0
    · simp only [Function.comp_apply, decide_eq_true hfg, Bool.true_and]
      exact List.any_eq_true.mpr ⟨row, hmem, decide_eq_true hfg⟩
    · have hdf : decide (tol < row.getD c 0) = false := by
        rw [decide_eq_false_iff_not]; exact hfg
      simp only [Function.comp_apply, hdf, Bool.false_and]
  rw [List.countP_congr fun c hc => by rw [hcong c hc]]
  have hw : width image = row.length := (hrect row hmem).symm
  rw [hw]
  conv_rhs => rw [← map_getD_range row 0]
  rw [List.countP_map]
  rfl

lemma countFg_crop (image : Image) (tol : ℚ) (hrect : Rect image) :
    countFg (crop_image image tol) tol = countFg image tol := by
  unfold countFg crop_image
  rw [List.map_map]
  have h1 : ((image.filter fun row => row.any fun v => decide (tol < v)).map
      ((fun row => row.countP fun v => decide (tol < v)) ∘
        fun row => (keptCols image tol).map fun c => row.getD c 0)) =
      ((image.filter fun row => row.any fun v => decide (tol < v)).map
        fun row => row.countP fun v => decide (tol < v)) := by
    apply List.map_congr_left
    intro row hrow
    exact countP_proj_keptCols image tol hrect row
      (List.mem_of_mem_filter hrow)
  rw [h1]
  apply sum_map_filter_of_zero
  intro row _ hfalse
  rw [List.countP_eq_zero]
  intro v hv
  have := List.any_eq_false.mp (by simpa using hfalse) v hv
  simpa using this

/-- C3 amended: crop_image returns the subarray keeping exactly the rows and
exactly the columns that contain a pixel strictly greater than the tolerance
(dropping interior all-background rows and columns rather than preserving
them): every row and every column of the result contains a pixel above the
tolerance, every pixel above the tolerance is retained (their count is
preserved), and the result is a zero-size array when no pixel exceeds the
tolerance. -/
theorem C3_crop_keeps_fg_rows_cols (image : Image) (tol : ℚ)
    (hrect : Rect image) :
    (∀ row ∈ crop_image image tol, ∃ v ∈ row, tol < v) ∧
    (∀ row ∈ crop_image image tol,
        row.length = (keptCols image tol).length) ∧
    (∀ j < (keptCols image tol).length,
        ∃ i < (crop_image image tol).length,
          tol < pix (crop_image image tol) i j) ∧
    countFg (crop_image image tol) tol = countFg image tol ∧
    ((∀ row ∈ image, ∀ v ∈ row, v ≤ tol) → crop_image image tol = []) := by
  refine ⟨crop_row_has_fg image tol hrect, ?_, crop_col_has_fg image tol hrect,
    countFg_crop image tol hrect, crop_of_no_fg image tol⟩
  intro row hrow
  unfold crop_image at hrow
  rcases List.mem_map.mp hrow with ⟨row₀, _, rfl⟩
  simp

theorem C3_crop_keeps_fg_rows_cols_witness :
    Rect [[1, 0, 1], [0, 0, 0], [1, 0, 1]] ∧
    ((∀ row ∈ crop_image [[1, 0, 1], [0, 0, 0], [1, 0, 1]] 0,
        ∃ v ∈ row, 0 < v) ∧
      (∀ row ∈ crop_image [[1, 0, 1], [0, 0, 0], [1, 0, 1]] 0,
          row.length = (keptCols [[1, 0, 1], [0, 0, 0], [1, 0, 1]] 0).length) ∧
      (∀ j < (keptCols [[1, 0, 1], [0, 0, 0], [1, 0, 1]] 0).length,
          ∃ i < (crop_image [[1, 0, 1], [0, 0, 0], [1, 0, 1]] 0).length,
            0 < pix (crop_image [[1, 0, 1], [0, 0, 0], [1, 0, 1]] 0) i j) ∧
      countFg (crop_image [[1, 0, 1], [0, 0, 0], [1, 0, 1]] 0) 0 =
        countFg [[1, 0, 1], [0, 0, 0], [1, 0, 1]] 0 ∧
      ((∀ row ∈ ([[1, 0, 1], [0, 0, 0], [1, 0, 1]] : Image), ∀ v ∈ row,
          v ≤ 0) → crop_image [[1, 0, 1], [0, 0, 0], [1, 0, 1]] 0 = [])) :=
  ⟨by unfold Rect width; decide,
    C3_crop_keeps_fg_rows_cols [[1, 0, 1], [0, 0, 0], [1, 0, 1]] 0
      (by unfold Rect width; decide)⟩

/-! The shape-ratio signature (claim C4).  Identical in
processing/signatures.py and main/processing/signatures.py:
component.shape[0] / component.shape[1].  In the repository's own axis
vocabulary (length_sig uses shape[0], height_sig uses shape[1]) this is the
bounding-box width over height.  Python division raises ZeroDivisionError on
a zero second dimension, modelled as none. -/

/-- shape_ratio_sig: the first dimension of the component divided by the
second; none models the ZeroDivisionError on an empty second axis. -/
def shape_ratio_sig (c : Image) : Option ℚ :=
  if width c = 0 then none
  else some ((c.length : ℚ) / (width c : ℚ))

lemma length_filter_range_getD {α : Type} (l : List α) (d : α) (p : α → Bool) :
    ((List.range l.length).filter fun i => p (l.getD i d)).length =
      (l.filter p).length := by
  induction l with
  | nil => rfl
  | cons a t ih =>
    have hcomp : ((fun i => p ((a :: t).getD i d)) ∘ Nat.succ) =
        fun i => p (t.getD i d) := by
      funext i
      simp [Function.comp, List.getD_cons_succ]
    rw [List.length_cons, List.range_succ_eq_map, List.filter_cons,
      List.filter_map, hcomp]
    by_cases hpa : p a
    · simpa [List.getD_cons_zero, hpa, List.filter_cons] using ih
    · simpa [List.getD_cons_zero, hpa, List.filter_cons] using ih

lemma crop_length (image : Image) (tol : ℚ) :
    (crop_image image tol).length =
      (image.filter fun row => row.any fun v => decide (tol < v)).length := by
  unfold crop_image
  rw [List.length_map]

lemma width_crop (image : Image) (tol : ℚ)
    (hne : crop_image image tol ≠ []) :
    width (crop_image image tol) = (keptCols image tol).length := by
  unfold width
  rcases hcons : crop_image image tol with _ | ⟨row, rest⟩
  · exact absurd hcons hne
  · have hmem : row ∈ crop_image image tol := by
      rw [hcons]
      exact List.mem_cons_self row rest
    unfold crop_image at hmem
    rcases List.mem_map.mp hmem with ⟨row₀, _, rfl⟩
    simp

lemma zero_rows_no_fg (k w : ℕ) (row : List ℚ) (c : ℕ)
    (hrow : row ∈ List.replicate k (List.replicate w (0 : ℚ))) :
    row.getD c 0 = 0 := by
  rw [List.eq_of_mem_replicate hrow]
  rcases Nat.lt_or_ge c w with h | h
  · rw [List.getD_eq_getElem _ _ (by simpa using h)]
    simp
  · rw [List.getD_eq_default]
    simpa using h

lemma crop_append_zero_rows (image : Image) (k : ℕ) (hne : image ≠ []) :
    crop_image (image ++ List.replicate k (List.replicate (width image) 0)) 0 =
      crop_image image 0 := by
  have hwidth : width (image ++ List.replicate k
      (List.replicate (width image) 0)) = width image := by
    unfold width
    rcases image with _ | ⟨row, rest⟩
    · exact absurd rfl hne
    · rfl
  have hnofg : ∀ row ∈ List.replicate k (List.replicate (width image) (0 : ℚ)),
      (row.any fun v => decide ((0 : ℚ) < v)) = false := by
    intro row hrow
    rw [List.any_eq_false]
    intro v hv
    rw [List.eq_of_mem_replicate hrow] at hv
    rw [List.eq_of_mem_replicate hv]
    simp
  have hkept : keptCols (image ++ List.replicate k
      (List.replicate (width image) 0)) 0 = keptCols image 0 := by
    unfold keptCols
    rw [hwidth]
    apply List.filter_congr
    intro c _
    rw [List.any_append]
    have : (List.any (List.replicate k (List.replicate (width image) (0 : ℚ)))
        fun row => decide ((0 : ℚ) < row.getD c 0)) = false := by
      rw [List.any_eq_false]
      intro row hrow
      rw [zero_rows_no_fg k (width image) row c hrow]
      simp
    rw [this, Bool.or_false]
  unfold crop_image
  rw [hkept, List.filter_append]
  have hz : List.filter (fun row => row.any fun v => decide ((0 : ℚ) < v))
      (List.replicate k (List.replicate (width image) 0)) = [] := by
    rw [List.filter_eq_nil_iff]
    intro row hrow
    rw [Bool.not_eq_true]
    exact hnofg row hrow
  rw [hz, List.append_nil]

/-- C4: for every rectangular image with at least one foreground pixel, the
shape-ratio signature of the cropped component is the ratio of the cropped
dimensions — the number of rows containing a foreground pixel over the number
of columns containing one, i.e. the bounding-box extents of the cropped
component itself — and it is unchanged when the original image is enlarged by
appending blank rows, so it never depends on the original image dimensions. -/
theorem C4_shape_ratio_uses_cropped_dims (image : Image) (hrect : Rect image)
    (hfg : ∃ row ∈ image, ∃ v ∈ row, (0 : ℚ) < v) (k : ℕ) :
    shape_ratio_sig (crop_image image 0) =
      some (((fgRowIdx image 0).length : ℚ) /
        ((keptCols image 0).length : ℚ)) ∧
    (crop_image image 0).length = (fgRowIdx image 0).length ∧
    width (crop_image image 0) = (keptCols image 0).length ∧
    shape_ratio_sig (crop_image
        (image ++ List.replicate k (List.replicate (width image) 0)) 0) =
      shape_ratio_sig (crop_image image 0) := by
  rcases hfg with ⟨row, hrow, v, hv, hvpos⟩
  have hne : image ≠ [] := by
    intro h; rw [h] at hrow; exact absurd hrow (List.not_mem_nil row)
  -- the filtered row list is nonempty, hence the crop is nonempty
  have hany : (row.any fun v => decide ((0 : ℚ) < v)) = true :=
    List.any_eq_true.mpr ⟨v, hv, decide_eq_true hvpos⟩
  have hmemf : row ∈ image.filter fun r => r.any fun v => decide ((0 : ℚ) < v) :=
    List.mem_filter.mpr ⟨hrow, hany⟩
  have hcropne : crop_image image 0 ≠ [] := by
    unfold crop_image
    intro h
    rw [List.map_eq_nil_iff] at h
    rw [h] at hmemf
    exact absurd hmemf (List.not_mem_nil row)
  -- the kept column list is nonempty
  rcases List.mem_iff_getElem.mp hv with ⟨c, hc, rfl⟩
  have hckept : c ∈ keptCols image 0 := by
    refine mem_keptCols.mpr ⟨hrect row hrow ▸ hc, row, hrow, ?_⟩
    rw [List.getD_eq_getElem _ _ hc]
    exact hvpos
  have hkne : (keptCols image 0).length ≠ 0 := by
    intro h
    rw [List.length_eq_zero] at h
    rw [h] at hckept
    exact absurd hckept (List.not_mem_nil c)
  have hlen : (crop_image image 0).length = (fgRowIdx image 0).length := by
    rw [crop_length]
    unfold fgRowIdx
    exact (length_filter_range_getD image []
      fun row => row.any fun v => decide ((0 : ℚ) < v)).symm
  have hwc : width (crop_image image 0) = (keptCols image 0).length :=
    width_crop image 0 hcropne
  have hmain : shape_ratio_sig (crop_image image 0) =
      some (((fgRowIdx image 0).length : ℚ) /
        ((keptCols image 0).length : ℚ)) := by
    unfold shape_ratio_sig
    rw [hwc, hlen, if_neg hkne]
  exact ⟨hmain, hlen, hwc, by rw [crop_append_zero_rows image k hne]⟩

theorem C4_shape_ratio_uses_cropped_dims_witness :
    (Rect [[0, 1, 1], [0, 1, 0]] ∧
      ∃ row ∈ ([[0, 1, 1], [0, 1, 0]] : Image), ∃ v ∈ row, (0 : ℚ) < v) ∧
    (shape_ratio_sig (crop_image [[0, 1, 1], [0, 1, 0]] 0) =
        some (((fgRowIdx [[0, 1, 1], [0, 1, 0]] 0).length : ℚ) /
          ((keptCols [[0, 1, 1], [0, 1, 0]] 0).length : ℚ)) ∧
      (crop_image [[0, 1, 1], [0, 1, 0]] 0).length =
        (fgRowIdx [[0, 1, 1], [0, 1, 0]] 0).length ∧
      width (crop_image [[0, 1, 1], [0, 1, 0]] 0) =
        (keptCols [[0, 1, 1], [0, 1, 0]] 0).length ∧
      shape_ratio_sig (crop_image ([[0, 1, 1], [0, 1, 0]] ++
          List.replicate 2 (List.replicate
            (width [[0, 1, 1], [0, 1, 0]]) 0)) 0) =
        shape_ratio_sig (crop_image [[0, 1, 1], [0, 1, 0]] 0)) :=
  ⟨⟨by unfold Rect width; decide, by decide⟩,
    C4_shape_ratio_uses_cropped_dims [[0, 1, 1], [0, 1, 0]]
      (by unfold Rect width; decide) (by decide) 2⟩

/-! Component extraction (claims C2, C10).  extract_components binarizes the
image (threshold 0.5), labels it with skimage.measure.label (8-connectivity
by default, all pixels of value equal to the background parameter collapsed
into the background label, which sorts first), builds a 0/1 float mask per
distinct label in ascending label order, skips masks that are entirely zero
unless allow_blank_images (dead code: a mask of a present label always has a
1), and drops the leading (background) component when background >= 0.

The external labeling routine is modelled by minimum-index propagation: every
non-background pixel starts with its raster index and repeatedly takes the
minimum over its 8-neighbors of equal pixel value; after rows*cols rounds
each region carries the raster index of its first pixel, so ascending label
order coincides with skimage's first-encounter numbering, with the background
label (-1 here, 0 in skimage) sorting first. -/

/-- Binarization (image > 0.5).astype(int) applied by extract_components
when its binarize flag is set; mkRat 1 2 is the threshold 0.5. -/
def binarizeImg (image : Image) : Image :=
  image.map fun row => row.map fun v => if mkRat 1 2 < v then (1 : ℚ) else 0

/-- Bounds-checked pixel read at signed coordinates. -/
def cellQ (g : Image) (r c : ℤ) : Option ℚ :=
  if 0 ≤ r ∧ 0 ≤ c then (g[r.toNat]?).bind fun row => row[c.toNat]? else none

/-- The eight neighbor offsets of full (2-)connectivity, the skimage default
for a 2D input. -/
def neighborOffsets : List (ℤ × ℤ) :=
  [(-1, -1), (-1, 0), (-1, 1), (0, -1), (0, 1), (1, -1), (1, 0), (1, 1)]

/-- Integer grid of the same shape as the image, with entry f r c. -/
def buildGrid (g : Image) (f : ℕ → ℕ → ℤ) : List (List ℤ) :=
  (List.range g.length).map fun r =>
    (List.range (g.getD r []).length).map fun c => f r c

/-- Initial labels: -1 on background-valued pixels, the raster index
elsewhere. -/
def initIds (g : Image) (bg : ℚ) : List (List ℤ) :=
  buildGrid g fun r c =>
    if (g.getD r []).getD c 0 = bg then -1 else (r * width g + c : ℤ)

/-- Labels of the 8-neighbors holding the same pixel value as (r, c). -/
def sameValNeighborIds (g : Image) (lab : List (List ℤ)) (r c : ℕ) :
    List ℤ :=
  neighborOffsets.filterMap fun d =>
    match cellQ g ((r : ℤ) + d.1) ((c : ℤ) + d.2) with
    | none => none
    | some v =>
      if v = (g.getD r []).getD c 0 then
        some ((lab.getD ((r : ℤ) + d.1).toNat []).getD
          ((c : ℤ) + d.2).toNat 0)
      else none

/-- One round of minimum-label propagation over equal-valued 8-neighbors;
background pixels keep the label -1. -/
def stepIds (g : Image) (bg : ℚ) (lab : List (List ℤ)) : List (List ℤ) :=
  buildGrid g fun r c =>
    if (g.getD r []).getD c 0 = bg then -1
    else (sameValNeighborIds g lab r c).foldl min ((lab.getD r []).getD c 0)

/-- The label grid of measure.label(img, background=bg): minimum-index
propagation run for rows*cols rounds, enough for convergence. -/
def idGrid (g : Image) (bg : ℚ) : List (List ℤ) :=
  (stepIds g bg)^[g.length * width g] (initIds g bg)

/-- The distinct labels in ascending order, as np.unique. -/
def np_unique (lab : List (List ℤ)) : List ℤ :=
  List.insertionSort (· ≤ ·) lab.flatten.dedup

/-- The 0/1 float mask (labeled_sample == label).astype(np.float64) of one
label. -/
def maskOf (lab : List (List ℤ)) (k : ℤ) : Image :=
  lab.map fun row => row.map fun x => if x = k then 1 else 0

/-- The mask list before blank filtering and background dropping: one mask
per distinct label, in ascending label order. -/
def allComponentMasks (g : Image) (bg : ℚ) : List Image :=
  (np_unique (idGrid g bg)).map fun k => maskOf (idGrid g bg) k

/-- Whether a component mask is entirely zero: (component == 0).all(). -/
def allZero (comp : Image) : Bool :=
  comp.all fun row => row.all fun v => decide (v = 0)

/-- The binarization step of extract_components, as in the source:
if binarize: image = (image > 0.5).astype(int). -/
def preprocess (image : Image) (binarize : Bool) : Image :=
  if binarize then binarizeImg image else image

/-- extract_components from processing/utils.py: optional binarization,
labeling with the given background value, one same-shaped 0/1 mask per
distinct label in ascending label order, the blank filter (unless
allow_blank_images), and dropping the first component when background is
nonnegative. -/
def extract_components (image : Image) (binarize : Bool) (background : ℚ)
    (allow_blank_images : Bool) : List Image :=
  let comps := (allComponentMasks (preprocess image binarize)
    background).filter fun comp => allow_blank_images || !allZero comp
  if 0 ≤ background then comps.drop 1 else comps

/-- The mask of the background-valued pixels of an image. -/
def bgMask (g : Image) (bg : ℚ) : Image :=
  g.map fun row => row.map fun v => if v = bg then 1 else 0

/-- A 3×7 image holding exactly two disjoint (not even 8-adjacent) 3×3
foreground squares separated by a background column. -/
def twoSquares : Image :=
  [[1, 1, 1, 0, 1, 1, 1],
   [1, 1, 1, 0, 1, 1, 1],
   [1, 1, 1, 0, 1, 1, 1]]

lemma buildGrid_length (g : Image) (f : ℕ → ℕ → ℤ) :
    (buildGrid g f).length = g.length := by
  unfold buildGrid
  simp

lemma buildGrid_getD (g : Image) (f : ℕ → ℕ → ℤ) (r : ℕ) (hr : r < g.length) :
    (buildGrid g f).getD r [] =
      (List.range (g.getD r []).length).map fun c => f r c := by
  unfold buildGrid
  rw [List.getD_eq_getElem _ _ (by simpa using hr), List.getElem_map,
    List.getElem_range]

lemma buildGrid_row_length (g : Image) (f : ℕ → ℕ → ℤ) (r : ℕ)
    (hr : r < g.length) :
    ((buildGrid g f).getD r []).length = (g.getD r []).length := by
  rw [buildGrid_getD g f r hr]
  simp

lemma buildGrid_entry (g : Image) (f : ℕ → ℕ → ℤ) (r c : ℕ)
    (hr : r < g.length) (hc : c < (g.getD r []).length) :
    ((buildGrid g f).getD r []).getD c 0 = f r c := by
  rw [buildGrid_getD g f r hr, List.getD_eq_getElem _ _ (by simpa using hc),
    List.getElem_map, List.getElem_range]

lemma iterIds_length (g : Image) (bg : ℚ) (n : ℕ) :
    ((stepIds g bg)^[n] (initIds g bg)).length = g.length := by
  induction n with
  | zero => exact buildGrid_length g _
  | succ n _ =>
    rw [Function.iterate_succ_apply']
    exact buildGrid_length g _

lemma iterIds_row_length (g : Image) (bg : ℚ) (n : ℕ) (r : ℕ)
    (hr : r < g.length) :
    (((stepIds g bg)^[n] (initIds g bg)).getD r []).length =
      (g.getD r []).length := by
  induction n with
  | zero => exact buildGrid_row_length g _ r hr
  | succ n _ =>
    rw [Function.iterate_succ_apply']
    exact buildGrid_row_length g _ r hr

lemma idGrid_length (g : Image) (bg : ℚ) : (idGrid g bg).length = g.length :=
  iterIds_length g bg _

lemma idGrid_row_length (g : Image) (bg : ℚ) (r : ℕ) (hr : r < g.length) :
    ((idGrid g bg).getD r []).length = (g.getD r []).length :=
  iterIds_row_length g bg _ r hr

/-- The labeling invariant: background-valued pixels carry the label -1 and
all other pixels carry a nonnegative label. -/
def BgInv (g : Image) (bg : ℚ) (lab : List (List ℤ)) : Prop :=
  ∀ r, r < g.length → ∀ c, c < (g.getD r []).length →
    ((g.getD r []).getD c 0 = bg → (lab.getD r []).getD c 0 = -1) ∧
    ((g.getD r []).getD c 0 ≠ bg → 0 ≤ (lab.getD r []).getD c 0)

lemma initIds_BgInv (g : Image) (bg : ℚ) : BgInv g bg (initIds g bg) := by
  intro r hr c hc
  unfold initIds
  rw [buildGrid_entry g _ r c hr hc]
  constructor
  · intro hbg
    rw [if_pos hbg]
  · intro hne
    rw [if_neg hne]
    positivity

lemma cellQ_eq_some {g : Image} {r c : ℤ} {v : ℚ}
    (h : cellQ g r c = some v) :
    0 ≤ r ∧ 0 ≤ c ∧ r.toNat < g.length ∧
      c.toNat < (g.getD r.toNat []).length ∧
      (g.getD r.toNat []).getD c.toNat 0 = v := by
  unfold cellQ at h
  by_cases hrc : 0 ≤ r ∧ 0 ≤ c
  · rw [if_pos hrc] at h
    rcases hrow : g[r.toNat]? with _ | row
    · rw [hrow] at h
      exact Option.noConfusion h
    · rw [hrow] at h
      simp only [Option.some_bind] at h
      rcases List.getElem?_eq_some_iff.mp hrow with ⟨hrlt, hrEq⟩
      rcases List.getElem?_eq_some_iff.mp h with ⟨hclt, hcEq⟩
      have hgr : g.getD r.toNat [] = row := by
        rw [List.getD_eq_getElem _ _ hrlt, hrEq]
      refine ⟨hrc.1, hrc.2, hrlt, ?_, ?_⟩
      · rw [hgr]
        exact hclt
      · rw [hgr, List.getD_eq_getElem _ _ hclt, hcEq]
  · rw [if_neg hrc] at h
    exact absurd h (by simp)

lemma sameValNeighborIds_nonneg (g : Image) (bg : ℚ) (lab : List (List ℤ))
    (r c : ℕ) (hinv : BgInv g bg lab)
    (hne : (g.getD r []).getD c 0 ≠ bg) :
    ∀ x ∈ sameValNeighborIds g lab r c, 0 ≤ x := by
  intro x hx
  unfold sameValNeighborIds at hx
  rcases List.mem_filterMap.mp hx with ⟨d, _, hmatch⟩
  rcases hcell : cellQ g ((r : ℤ) + d.1) ((c : ℤ) + d.2) with _ | v
  · rw [hcell] at hmatch
    exact Option.noConfusion hmatch
  · rw [hcell] at hmatch
    have hmatch' : (if v = (g.getD r []).getD c 0 then
        some ((lab.getD ((r : ℤ) + d.1).toNat []).getD
          ((c : ℤ) + d.2).toNat 0)
      else none) = some x := hmatch
    by_cases hv : v = (g.getD r []).getD c 0
    · rw [if_pos hv] at hmatch'
      have hx' := Option.some.inj hmatch'
      rcases cellQ_eq_some hcell with ⟨_, _, hrlt, hclt, hval⟩
      have hvne : (g.getD ((r : ℤ) + d.1).toNat []).getD
          ((c : ℤ) + d.2).toNat 0 ≠ bg := by
        rw [hval, hv]
        exact hne
      have := (hinv _ hrlt _ hclt).2 hvne
      exact hx' ▸ this
    · rw [if_neg hv] at hmatch'
      exact Option.noConfusion hmatch'

lemma foldl_min_nonneg (l : List ℤ) (a : ℤ) (ha : 0 ≤ a)
    (hl : ∀ x ∈ l, 0 ≤ x) : 0 ≤ l.foldl min a := by
  induction l generalizing a with
  | nil => exact ha
  | cons x t ih =>
    exact ih (min a x) (le_min ha (hl x (List.mem_cons_self x t)))
      fun y hy => hl y (List.mem_cons_of_mem x hy)

lemma stepIds_BgInv (g : Image) (bg : ℚ) (lab : List (List ℤ))
    (hinv : BgInv g bg lab) : BgInv g bg (stepIds g bg lab) := by
  intro r hr c hc
  unfold stepIds
  rw [buildGrid_entry g _ r c hr hc]
  constructor
  · intro hbg
    rw [if_pos hbg]
  · intro hne
    rw [if_neg hne]
    exact foldl_min_nonneg _ _ ((hinv r hr c hc).2 hne)
      (sameValNeighborIds_nonneg g bg lab r c hinv hne)

lemma idGrid_BgInv (g : Image) (bg : ℚ) : BgInv g bg (idGrid g bg) := by
  unfold idGrid
  generalize g.length * width g = n
  induction n with
  | zero => exact initIds_BgInv g bg
  | succ n ih =>
    rw [Function.iterate_succ_apply']
    exact stepIds_BgInv g bg _ ih

lemma idGrid_entry_neg_one_iff (g : Image) (bg : ℚ) (r c : ℕ)
    (hr : r < g.length) (hc : c < (g.getD r []).length) :
    ((idGrid g bg).getD r []).getD c 0 = -1 ↔
      (g.getD r []).getD c 0 = bg := by
  constructor
  · intro h
    by_contra hne
    have := (idGrid_BgInv g bg r hr c hc).2 hne
    rw [h] at this
    omega
  · exact (idGrid_BgInv g bg r hr c hc).1

lemma mem_np_unique {lab : List (List ℤ)} {k : ℤ} :
    k ∈ np_unique lab ↔ k ∈ lab.flatten := by
  unfold np_unique
  rw [(List.perm_insertionSort _ _).mem_iff, List.mem_dedup]

lemma entry_mem_flatten {lab : List (List ℤ)} {r c : ℕ}
    (hr : r < lab.length) (hc : c < (lab.getD r []).length) :
    (lab.getD r []).getD c 0 ∈ lab.flatten := by
  rw [List.mem_flatten]
  refine ⟨lab.getD r [], ?_, ?_⟩
  · rw [List.getD_eq_getElem _ _ hr]
    exact List.getElem_mem hr
  · rw [List.getD_eq_getElem (lab.getD r []) _ hc]
    exact List.getElem_mem hc

lemma flatten_entry {lab : List (List ℤ)} {k : ℤ} (h : k ∈ lab.flatten) :
    ∃ r, ∃ hr : r < lab.length, ∃ c, ∃ hc : c < (lab.getD r []).length,
      (lab.getD r []).getD c 0 = k := by
  rcases List.mem_flatten.mp h with ⟨row, hrow, hk⟩
  rcases List.mem_iff_getElem.mp hrow with ⟨r, hr, hrEq⟩
  rcases List.mem_iff_getElem.mp hk with ⟨c, hc, hcEq⟩
  have hgr : lab.getD r [] = row := by
    rw [List.getD_eq_getElem _ _ hr, hrEq]
  refine ⟨r, hr, c, by rw [hgr]; exact hc, ?_⟩
  rw [hgr, List.getD_eq_getElem _ _ hc, hcEq]

lemma maskOf_not_allZero {lab : List (List ℤ)} {k : ℤ}
    (h : k ∈ lab.flatten) : allZero (maskOf lab k) = false := by
  rcases List.mem_flatten.mp h with ⟨row, hrow, hk⟩
  unfold allZero maskOf
  rw [List.all_eq_false]
  refine ⟨row.map fun x => if x = k then 1 else 0,
    List.mem_map_of_mem _ hrow, ?_⟩
  rw [Bool.not_eq_true, List.all_eq_false]
  refine ⟨if k = k then 1 else 0, List.mem_map_of_mem _ hk, ?_⟩
  simp

lemma filter_blank_id (g : Image) (bg : ℚ) (ab : Bool) :
    ((allComponentMasks g bg).filter fun comp => ab || !allZero comp) =
      allComponentMasks g bg := by
  rw [List.filter_eq_self]
  intro comp hcomp
  rcases List.mem_map.mp hcomp with ⟨k, hk, rfl⟩
  rw [maskOf_not_allZero (mem_np_unique.mp hk)]
  simp

lemma preprocess_length (image : Image) (b : Bool) :
    (preprocess image b).length = image.length := by
  unfold preprocess binarizeImg
  cases b <;> simp

lemma preprocess_row_length (image : Image) (b : Bool) (r : ℕ)
    (hr : r < image.length) :
    ((preprocess image b).getD r []).length = (image.getD r []).length := by
  unfold preprocess binarizeImg
  cases b
  · rfl
  · rw [if_pos rfl, List.getD_eq_getElem _ _ (by simpa using hr),
      List.getElem_map, List.getD_eq_getElem _ _ hr]
    simp

lemma maskOf_length (lab : List (List ℤ)) (k : ℤ) :
    (maskOf lab k).length = lab.length := by
  unfold maskOf
  simp

lemma maskOf_row_length (lab : List (List ℤ)) (k : ℤ) (r : ℕ)
    (hr : r < lab.length) :
    ((maskOf lab k).getD r []).length = (lab.getD r []).length := by
  unfold maskOf
  rw [List.getD_eq_getElem _ _ (by simpa using hr), List.getElem_map,
    List.getD_eq_getElem _ _ hr]
  simp

lemma maskOf_entry (lab : List (List ℤ)) (k : ℤ) (r c : ℕ)
    (hr : r < lab.length) (hc : c < (lab.getD r []).length) :
    ((maskOf lab k).getD r []).getD c 0 =
      if (lab.getD r []).getD c 0 = k then 1 else 0 := by
  unfold maskOf
  have h1 : (List.map
      (fun row => List.map (fun x => if x = k then (1 : ℚ) else 0) row)
      lab).getD r [] =
      List.map (fun x => if x = k then (1 : ℚ) else 0) (lab.getD r []) := by
    rw [List.getD_eq_getElem _ _ (by simpa using hr), List.getElem_map,
      List.getD_eq_getElem _ _ hr]
  rw [h1, List.getD_eq_getElem _ _ (by simpa using hc), List.getElem_map,
    List.getD_eq_getElem _ _ hc]

lemma np_unique_head_bg (g : Image) (bg : ℚ)
    (hocc : (g.any fun row => row.any fun v => decide (v = bg)) = true) :
    ∃ t, np_unique (idGrid g bg) = -1 :: t := by
  rcases List.any_eq_true.mp hocc with ⟨row, hrow, hrowany⟩
  rcases List.any_eq_true.mp hrowany with ⟨v, hv, hvbg⟩
  have hvbg' : v = bg := of_decide_eq_true hvbg
  rcases List.mem_iff_getElem.mp hrow with ⟨r, hr, hrEq⟩
  rcases List.mem_iff_getElem.mp hv with ⟨c, hc, hcEq⟩
  have hgr : g.getD r [] = row := by
    rw [List.getD_eq_getElem _ _ hr, hrEq]
  have hcg : c < (g.getD r []).length := by
    rw [hgr]
    exact hc
  have hbg : (g.getD r []).getD c 0 = bg := by
    rw [hgr, List.getD_eq_getElem _ _ hc, hcEq, hvbg']
  have hentry : ((idGrid g bg).getD r []).getD c 0 = -1 :=
    (idGrid_BgInv g bg r hr c hcg).1 hbg
  have hmem : (-1 : ℤ) ∈ np_unique (idGrid g bg) := by
    rw [mem_np_unique, ← hentry]
    exact entry_mem_flatten (by rw [idGrid_length]; exact hr)
      (by rw [idGrid_row_length g bg r hr]; exact hcg)
  have hlow : ∀ x ∈ np_unique (idGrid g bg), -1 ≤ x := by
    intro x hx
    rcases flatten_entry (mem_np_unique.mp hx) with ⟨r', hr', c', hc', hEq⟩
    have hr'' : r' < g.length := by rw [← idGrid_length g bg]; exact hr'
    have hc'' : c' < (g.getD r' []).length := by
      rw [← idGrid_row_length g bg r' hr'']
      exact hc'
    rcases idGrid_BgInv g bg r' hr'' c' hc'' with ⟨h1, h2⟩
    by_cases hb : (g.getD r' []).getD c' 0 = bg
    · rw [← hEq, h1 hb]
    · have := h2 hb
      rw [← hEq]
      omega
  have hsorted : List.Sorted (· ≤ ·) (np_unique (idGrid g bg)) :=
    List.sorted_insertionSort _ _
  rcases hu : np_unique (idGrid g bg) with _ | ⟨a, t⟩
  · rw [hu] at hmem
    exact absurd hmem (List.not_mem_nil _)
  · rw [hu] at hmem hsorted hlow
    have ha1 : -1 ≤ a := hlow a (List.mem_cons_self a t)
    have ha2 : a ≤ -1 := by
      rcases List.mem_cons.mp hmem with h | h
      · omega
      · exact List.rel_of_sorted_cons hsorted (-1) h
    have ha : a = -1 := le_antisymm ha2 ha1
    subst ha
    exact ⟨t, rfl⟩

lemma grid_map_eq {α β : Type} (d1 : α) (d2 : β) (l1 : List (List α))
    (l2 : List (List β)) (f : α → ℚ) (hfun : β → ℚ)
    (hlen : l1.length = l2.length)
    (hrow : ∀ r < l1.length, (l1.getD r []).length = (l2.getD r []).length)
    (hent : ∀ r < l1.length, ∀ c < (l1.getD r []).length,
      f ((l1.getD r []).getD c d1) = hfun ((l2.getD r []).getD c d2)) :
    (l1.map fun row => row.map f) = l2.map fun row => row.map hfun := by
  apply List.ext_getElem (by simp [hlen])
  intro r h1 h2
  rw [List.getElem_map, List.getElem_map]
  have hr1 : r < l1.length := by simpa using h1
  have hr2 : r < l2.length := hlen ▸ hr1
  have hrowlen := hrow r hr1
  rw [List.getD_eq_getElem _ _ hr1, List.getD_eq_getElem _ _ hr2] at hrowlen
  apply List.ext_getElem (by simp [hrowlen])
  intro c hc1 hc2
  rw [List.getElem_map, List.getElem_map]
  have hcl1 : c < l1[r].length := by simpa using hc1
  have hcl2 : c < l2[r].length := by simpa using hc2
  have hcd : c < (l1.getD r []).length := by
    rw [List.getD_eq_getElem _ _ hr1]
    exact hcl1
  have := hent r hr1 c hcd
  rw [List.getD_eq_getElem _ _ hr1, List.getD_eq_getElem _ _ hr2,
    List.getD_eq_getElem _ _ hcl1, List.getD_eq_getElem _ _ hcl2] at this
  exact this

lemma maskOf_neg_one_eq_bgMask (g : Image) (bg : ℚ) :
    maskOf (idGrid g bg) (-1) = bgMask g bg := by
  unfold maskOf bgMask
  apply grid_map_eq 0 0 (idGrid g bg) g _ _ (idGrid_length g bg)
    (fun r hr => idGrid_row_length g bg r (by rw [← idGrid_length g bg]; exact hr))
  intro r hr c hc
  have hrg : r < g.length := by rw [← idGrid_length g bg]; exact hr
  have hcg : c < (g.getD r []).length := by
    rw [← idGrid_row_length g bg r hrg]
    exact hc
  exact if_congr (idGrid_entry_neg_one_iff g bg r c hrg hcg) rfl rfl

lemma countEq_pos_of_entry (m : Image) (v : ℚ) (r c : ℕ) (hr : r < m.length)
    (hc : c < (m.getD r []).length) (hv : (m.getD r []).getD c 0 = v) :
    0 < countEq m v := by
  by_contra hle
  push_neg at hle
  have h0 : countEq m v = 0 := Nat.le_zero.mp hle
  unfold countEq at h0
  rw [List.sum_eq_zero_iff] at h0
  have hrow : (m.getD r []).countP (fun x => decide (x = v)) = 0 := by
    apply h0
    apply List.mem_map_of_mem
    rw [List.getD_eq_getElem _ _ hr]
    exact List.getElem_mem hr
  rw [List.countP_eq_zero] at hrow
  have hmem : (m.getD r []).getD c 0 ∈ m.getD r [] := by
    rw [List.getD_eq_getElem _ _ hc]
    exact List.getElem_mem hc
  have := hrow _ hmem
  rw [hv] at this
  simp at this

/-- C2: extract_components on an image holding exactly two disjoint 3×3
foreground squares, with background 0 designated, returns exactly 2
components of 9 foreground pixels each.  In general the result is the list
of masks of all distinct labeled regions in ascending label order, with the
leading component dropped exactly when the background policy designates a
concrete (nonnegative) value; with background -1 every distinct labeled
region, including the all-zero region, is returned, and whenever the
background value occurs in the (preprocessed) image the dropped head is
precisely the mask of the background-valued pixels. -/
theorem C2_extract_components_regions (image : Image) (b ab : Bool)
    (bg : ℚ) :
    ((extract_components twoSquares true 0 false).length = 2 ∧
      ∀ m ∈ extract_components twoSquares true 0 false, countEq m 1 = 9) ∧
    extract_components image b bg ab =
      (if 0 ≤ bg then (allComponentMasks (preprocess image b) bg).tail
       else allComponentMasks (preprocess image b) bg) ∧
    (((preprocess image b).any fun row => row.any fun v =>
        decide (v = bg)) = true →
      (allComponentMasks (preprocess image b) bg).headD [] =
        bgMask (preprocess image b) bg) := by
  refine ⟨⟨by decide, by decide⟩, ?_, ?_⟩
  · simp only [extract_components]
    rw [filter_blank_id]
    by_cases h : 0 ≤ bg
    · rw [if_pos h, if_pos h, List.drop_one]
    · rw [if_neg h, if_neg h]
  · intro hocc
    rcases np_unique_head_bg (preprocess image b) bg hocc with ⟨t, ht⟩
    unfold allComponentMasks
    rw [ht]
    simp only [List.map_cons, List.headD_cons]
    exact maskOf_neg_one_eq_bgMask _ bg

theorem C2_extract_components_regions_witness :
    (((preprocess twoSquares true).any fun row => row.any fun v =>
        decide (v = (0 : ℚ))) = true) ∧
    ((allComponentMasks (preprocess twoSquares true) 0).headD [] =
      bgMask (preprocess twoSquares true) 0) :=
  ⟨by decide, (C2_extract_components_regions twoSquares true false 0).2.2
    (by decide)⟩

/-- C10: every component in the list returned by extract_components, under
every configuration of binarize, background and allow_blank_images, has the
same shape as the input image, is exactly the 0/1 indicator mask of one
labeled region, and contains at least one pixel equal to 1 — hence
pixel_ratio_sig evaluates on it to a finite value (no division by zero). -/
theorem C10_component_masks_wellformed (image : Image) (b ab : Bool)
    (bg : ℚ) (m : Image) (hm : m ∈ extract_components image b bg ab) :
    m.length = image.length ∧
    (∀ r < image.length, (m.getD r []).length = (image.getD r []).length) ∧
    (∃ k ∈ np_unique (idGrid (preprocess image b) bg),
      m = maskOf (idGrid (preprocess image b) bg) k) ∧
    (∀ r < m.length, ∀ c < (m.getD r []).length,
      (m.getD r []).getD c 0 = 0 ∨ (m.getD r []).getD c 0 = 1) ∧
    (∃ r, ∃ hr : r < m.length, ∃ c, ∃ hc : c < (m.getD r []).length,
      (m.getD r []).getD c 0 = 1) ∧
    pixel_ratio_sig m =
      NpFloat.fin ((countEq m 0 : ℚ) / (countEq m 1 : ℚ)) := by
  have hm' : m ∈ allComponentMasks (preprocess image b) bg := by
    simp only [extract_components] at hm
    by_cases h : 0 ≤ bg
    · rw [if_pos h] at hm
      exact List.mem_of_mem_filter (List.mem_of_mem_drop hm)
    · rw [if_neg h] at hm
      exact List.mem_of_mem_filter hm
  rcases List.mem_map.mp hm' with ⟨k, hk, rfl⟩
  have hlablen : (idGrid (preprocess image b) bg).length = image.length := by
    rw [idGrid_length, preprocess_length]
  have hlabrow : ∀ r < image.length,
      ((idGrid (preprocess image b) bg).getD r []).length =
        (image.getD r []).length := by
    intro r hr
    rw [idGrid_row_length _ _ r (by rw [preprocess_length]; exact hr),
      preprocess_row_length image b r hr]
  have hlen : (maskOf (idGrid (preprocess image b) bg) k).length =
      image.length := by
    rw [maskOf_length, hlablen]
  have hrowlen : ∀ r < image.length,
      ((maskOf (idGrid (preprocess image b) bg) k).getD r []).length =
        (image.getD r []).length := by
    intro r hr
    rw [maskOf_row_length _ k r (by rw [hlablen]; exact hr), hlabrow r hr]
  refine ⟨hlen, hrowlen, ⟨k, hk, rfl⟩, ?_, ?_, ?_⟩
  · intro r hr c hc
    have hrl : r < (idGrid (preprocess image b) bg).length := by
      rw [← maskOf_length _ k]
      exact hr
    have hcl : c < ((idGrid (preprocess image b) bg).getD r []).length := by
      rw [← maskOf_row_length _ k r hrl]
      exact hc
    rw [maskOf_entry _ k r c hrl hcl]
    by_cases hkk : ((idGrid (preprocess image b) bg).getD r []).getD c 0 = k
    · rw [if_pos hkk]
      right
      rfl
    · rw [if_neg hkk]
      left
      rfl
  · rcases flatten_entry (mem_np_unique.mp hk) with ⟨r, hr, c, hc, hEq⟩
    refine ⟨r, by rw [maskOf_length]; exact hr, c,
      by rw [maskOf_row_length _ k r hr]; exact hc, ?_⟩
    rw [maskOf_entry _ k r c hr hc, if_pos hEq]
  · rcases flatten_entry (mem_np_unique.mp hk) with ⟨r, hr, c, hc, hEq⟩
    have hone : ((maskOf (idGrid (preprocess image b) bg) k).getD
        r []).getD c 0 = 1 := by
      rw [maskOf_entry _ k r c hr hc, if_pos hEq]
    have hpos : 0 < countEq (maskOf (idGrid (preprocess image b) bg) k) 1 :=
      countEq_pos_of_entry _ 1 r c (by rw [maskOf_length]; exact hr)
        (by rw [maskOf_row_length _ k r hr]; exact hc) hone
    unfold pixel_ratio_sig npDiv
    rw [if_neg (by exact_mod_cast Nat.pos_iff_ne_zero.mp hpos)]

theorem C10_component_masks_wellformed_witness :
    ([[1, 1, 1, 0, 0, 0, 0], [1, 1, 1, 0, 0, 0, 0],
        [1, 1, 1, 0, 0, 0, 0]] : Image) ∈
      extract_components twoSquares true 0 false ∧
    (([[1, 1, 1, 0, 0, 0, 0], [1, 1, 1, 0, 0, 0, 0],
        [1, 1, 1, 0, 0, 0, 0]] : Image).length = twoSquares.length ∧
      (∀ r < twoSquares.length,
        (([[1, 1, 1, 0, 0, 0, 0], [1, 1, 1, 0, 0, 0, 0],
          [1, 1, 1, 0, 0, 0, 0]] : Image).getD r []).length =
          (twoSquares.getD r []).length) ∧
      (∃ k ∈ np_unique (idGrid (preprocess twoSquares true) 0),
        ([[1, 1, 1, 0, 0, 0, 0], [1, 1, 1, 0, 0, 0, 0],
          [1, 1, 1, 0, 0, 0, 0]] : Image) =
          maskOf (idGrid (preprocess twoSquares true) 0) k) ∧
      (∀ r < ([[1, 1, 1, 0, 0, 0, 0], [1, 1, 1, 0, 0, 0, 0],
          [1, 1, 1, 0, 0, 0, 0]] : Image).length,
        ∀ c < (([[1, 1, 1, 0, 0, 0, 0], [1, 1, 1, 0, 0, 0, 0],
            [1, 1, 1, 0, 0, 0, 0]] : Image).getD r []).length,
          (([[1, 1, 1, 0, 0, 0, 0], [1, 1, 1, 0, 0, 0, 0],
            [1, 1, 1, 0, 0, 0, 0]] : Image).getD r []).getD c 0 = 0 ∨
          (([[1, 1, 1, 0, 0, 0, 0], [1, 1, 1, 0, 0, 0, 0],
            [1, 1, 1, 0, 0, 0, 0]] : Image).getD r []).getD c 0 = 1) ∧
      (∃ r, ∃ hr : r < ([[1, 1, 1, 0, 0, 0, 0], [1, 1, 1, 0, 0, 0, 0],
          [1, 1, 1, 0, 0, 0, 0]] : Image).length,
        ∃ c, ∃ hc : c < (([[1, 1, 1, 0, 0, 0, 0], [1, 1, 1, 0, 0, 0, 0],
            [1, 1, 1, 0, 0, 0, 0]] : Image).getD r []).length,
          (([[1, 1, 1, 0, 0, 0, 0], [1, 1, 1, 0, 0, 0, 0],
            [1, 1, 1, 0, 0, 0, 0]] : Image).getD r []).getD c 0 = 1) ∧
      pixel_ratio_sig [[1, 1, 1, 0, 0, 0, 0], [1, 1, 1, 0, 0, 0, 0],
          [1, 1, 1, 0, 0, 0, 0]] =
        NpFloat.fin
          ((countEq [[1, 1, 1, 0, 0, 0, 0], [1, 1, 1, 0, 0, 0, 0],
            [1, 1, 1, 0, 0, 0, 0]] 0 : ℚ) /
          (countEq [[1, 1, 1, 0, 0, 0, 0], [1, 1, 1, 0, 0, 0, 0],
            [1, 1, 1, 0, 0, 0, 0]] 1 : ℚ))) :=
  ⟨by decide, C10_component_masks_wellformed twoSquares true false 0
    [[1, 1, 1, 0, 0, 0, 0], [1, 1, 1, 0, 0, 0, 0], [1, 1, 1, 0, 0, 0, 0]]
    (by decide)⟩

/-! The largest-inscribed-rectangle dynamic program (claim C9),
get_inscribed_rect_area from processing/utils.py.  For every pixel not equal
to the skip value 0, h[r][c] is the upward run and w[r][c] the leftward run
of non-skip pixels ending at (r, c); the inner loop scans dh = 0..h[r][c]-1
tracking minw, the minimum of w over rows r-dh..r, and replaces the stored
maximum whenever (dh+1)*minw strictly exceeds it, recording the bounding
coordinates (r-dh, c-minw+1, r, c). -/

/-- The h array of the source: upward run of pixels different from the skip
value 0 ending at (r, c); pixels equal to 0 keep h = 0. -/
def hval (a : Image) : ℕ → ℕ → ℕ
  | 0, c => if pix a 0 c = 0 then 0 else 1
  | r + 1, c => if pix a (r + 1) c = 0 then 0 else hval a r c + 1

/-- The w array of the source: leftward run of pixels different from the
skip value 0 ending at (r, c); pixels equal to 0 keep w = 0. -/
def wval (a : Image) (r : ℕ) : ℕ → ℕ
  | 0 => if pix a r 0 = 0 then 0 else 1
  | c + 1 => if pix a r (c + 1) = 0 then 0 else wval a r c + 1

/-- The running minimum minw of the inner loop after iteration dh: the
minimum of w over rows r-dh..r in column c. -/
def minwUpTo (a : Image) (r c : ℕ) : ℕ → ℕ
  | 0 => wval a r c
  | dh + 1 => min (minwUpTo a r c dh) (wval a (r - (dh + 1)) c)

/-- All loop iterations that reach the area comparison, in loop order:
one candidate ((dh+1)*minw, (r-dh, c-minw+1, r, c)) per non-skip pixel
(r, c) and inner index dh < h[r][c]. -/
def rectCandidates (a : Image) : List (ℕ × (ℕ × ℕ × ℕ × ℕ)) :=
  (List.range a.length).flatMap fun r =>
    (List.range (width a)).flatMap fun c =>
      if pix a r c = 0 then []
      else (List.range (hval a r c)).map fun dh =>
        ((dh + 1) * minwUpTo a r c dh,
          (r - dh, c + 1 - minwUpTo a r c dh, r, c))

/-- The update of area_max: replace the stored (area, coordinate list) when
the candidate area is strictly larger. -/
def updStep (best : ℕ × List (ℕ × ℕ × ℕ × ℕ))
    (cand : ℕ × (ℕ × ℕ × ℕ × ℕ)) : ℕ × List (ℕ × ℕ × ℕ × ℕ) :=
  if best.1 < cand.1 then (cand.1, [cand.2]) else best

/-- get_inscribed_rect_area: area_max starts at (0, []) and every loop
iteration applies the strict-improvement update in loop order. -/
def get_inscribed_rect_area (a : Image) : ℕ × List (ℕ × ℕ × ℕ × ℕ) :=
  (rectCandidates a).foldl updStep (0, [])

/-- The 4×4 all-foreground component of the spec's concrete test. -/
def fourSquare : Image :=
  [[1, 1, 1, 1], [1, 1, 1, 1], [1, 1, 1, 1], [1, 1, 1, 1]]

lemma hval_le (a : Image) (c : ℕ) : ∀ r, hval a r c ≤ r + 1
  | 0 => by unfold hval; split <;> omega
  | r + 1 => by
    unfold hval
    have := hval_le a c r
    split <;> omega

lemma wval_le (a : Image) (r : ℕ) : ∀ c, wval a r c ≤ c + 1
  | 0 => by unfold wval; split <;> omega
  | c + 1 => by
    unfold wval
    have := wval_le a r c
    split <;> omega

lemma hval_pix (a : Image) (c : ℕ) :
    ∀ r dh, dh < hval a r c → pix a (r - dh) c ≠ 0
  | 0, dh => by
    intro h
    unfold hval at h
    by_cases hp : pix a 0 c = 0
    · rw [if_pos hp] at h
      omega
    · rw [if_neg hp] at h
      have : dh = 0 := by omega
      rw [this, Nat.zero_sub]
      exact hp
  | r + 1, dh => by
    intro h
    unfold hval at h
    by_cases hp : pix a (r + 1) c = 0
    · rw [if_pos hp] at h
      omega
    · rw [if_neg hp] at h
      rcases Nat.eq_zero_or_pos dh with h0 | h0
      · rw [h0, Nat.sub_zero]
        exact hp
      · have hlt : dh - 1 < hval a r c := by omega
        have := hval_pix a c r (dh - 1) hlt
        have heq : r + 1 - dh = r - (dh - 1) := by omega
        rw [heq]
        exact this

lemma wval_pix (a : Image) (r : ℕ) :
    ∀ c i, i < wval a r c → pix a r (c - i) ≠ 0
  | 0, i => by
    intro h
    unfold wval at h
    by_cases hp : pix a r 0 = 0
    · rw [if_pos hp] at h
      omega
    · rw [if_neg hp] at h
      have : i = 0 := by omega
      rw [this, Nat.zero_sub]
      exact hp
  | c + 1, i => by
    intro h
    unfold wval at h
    by_cases hp : pix a r (c + 1) = 0
    · rw [if_pos hp] at h
      omega
    · rw [if_neg hp] at h
      rcases Nat.eq_zero_or_pos i with h0 | h0
      · rw [h0, Nat.sub_zero]
        exact hp
      · have hlt : i - 1 < wval a r c := by omega
        have := wval_pix a r c (i - 1) hlt
        have heq : c + 1 - i = c - (i - 1) := by omega
        rw [heq]
        exact this

lemma minwUpTo_le_wval (a : Image) (r c : ℕ) :
    ∀ dh j, j ≤ dh → minwUpTo a r c dh ≤ wval a (r - j) c
  | 0, j => by
    intro hj
    have : j = 0 := by omega
    rw [this, Nat.sub_zero]
    unfold minwUpTo
    exact le_refl _
  | dh + 1, j => by
    intro hj
    unfold minwUpTo
    rcases Nat.lt_or_ge j (dh + 1) with h | h
    · exact le_trans (min_le_left _ _)
        (minwUpTo_le_wval a r c dh j (by omega))
    · have : j = dh + 1 := by omega
      rw [this]
      exact min_le_right _ _

lemma minwUpTo_pos (a : Image) (r c dh : ℕ) (h : dh < hval a r c) :
    0 < minwUpTo a r c dh := by
  induction dh with
  | zero =>
    unfold minwUpTo
    have hp : pix a r c ≠ 0 := by
      have := hval_pix a c r 0 (by omega)
      rwa [Nat.sub_zero] at this
    cases c with
    | zero => unfold wval; rw [if_neg hp]; omega
    | succ c' => unfold wval; rw [if_neg hp]; omega
  | succ dh ih =>
    unfold minwUpTo
    have h1 : 0 < minwUpTo a r c dh := ih (by omega)
    have hp : pix a (r - (dh + 1)) c ≠ 0 := hval_pix a c r (dh + 1) h
    have h2 : 0 < wval a (r - (dh + 1)) c := by
      cases hc : c with
      | zero => unfold wval; rw [if_neg (hc ▸ hp)]; omega
      | succ c' => unfold wval; rw [if_neg (hc ▸ hp)]; omega
    omega

/-- Soundness of one recorded candidate: its coordinates describe an
in-bounds rectangle of non-skip pixels whose area is the stored product. -/
def SoundCand (a : Image) (cand : ℕ × (ℕ × ℕ × ℕ × ℕ)) : Prop :=
  ∃ r0 c0 r1 c1, cand.2 = (r0, c0, r1, c1) ∧ r0 ≤ r1 ∧ r1 < a.length ∧
    c0 ≤ c1 ∧ c1 < width a ∧ cand.1 = (r1 + 1 - r0) * (c1 + 1 - c0) ∧
    ∀ r', r0 ≤ r' → r' ≤ r1 → ∀ c', c0 ≤ c' → c' ≤ c1 → pix a r' c' ≠ 0

lemma rectCandidates_sound (a : Image) :
    ∀ cand ∈ rectCandidates a, SoundCand a cand := by
  intro cand hcand
  unfold rectCandidates at hcand
  rcases List.mem_flatMap.mp hcand with ⟨r, hr, hcand⟩
  rcases List.mem_flatMap.mp hcand with ⟨c, hc, hcand⟩
  rw [List.mem_range] at hr hc
  by_cases hp : pix a r c = 0
  · rw [if_pos hp] at hcand
    exact absurd hcand (List.not_mem_nil cand)
  · rw [if_neg hp] at hcand
    rcases List.mem_map.mp hcand with ⟨dh, hdh, rfl⟩
    rw [List.mem_range] at hdh
    have hdhr : dh ≤ r := by
      have := hval_le a c r
      omega
    have hminw1 : 0 < minwUpTo a r c dh := minwUpTo_pos a r c dh hdh
    have hminwc : minwUpTo a r c dh ≤ c + 1 := by
      have h1 := minwUpTo_le_wval a r c dh 0 (by omega)
      rw [Nat.sub_zero] at h1
      exact le_trans h1 (wval_le a r c)
    have hareaEq : (dh + 1) * minwUpTo a r c dh =
        (r + 1 - (r - dh)) * (c + 1 - (c + 1 - minwUpTo a r c dh)) := by
      have e1 : r + 1 - (r - dh) = dh + 1 := by omega
      have e2 : c + 1 - (c + 1 - minwUpTo a r c dh) =
          minwUpTo a r c dh := by omega
      rw [e1, e2]
    refine ⟨r - dh, c + 1 - minwUpTo a r c dh, r, c, rfl, by omega, hr,
      by omega, hc, hareaEq, ?_⟩
    intro r' hr1 hr2 c' hc1 hc2
    have hj : r - r' ≤ dh := by omega
    have hminw : minwUpTo a r c dh ≤ wval a (r - (r - r')) c :=
      minwUpTo_le_wval a r c dh (r - r') hj
    have hrr : r - (r - r') = r' := by omega
    rw [hrr] at hminw
    have hi : c - c' < wval a r' c := by omega
    have := wval_pix a r' c (c - c') hi
    have hcc : c - (c - c') = c' := by omega
    rw [hcc] at this
    exact this

/-- Invariant of the running area_max: either still the initial (0, []) or a
sound recorded candidate. -/
def SoundRect (a : Image) (p : ℕ × List (ℕ × ℕ × ℕ × ℕ)) : Prop :=
  p = (0, []) ∨ ∃ cand, SoundCand a cand ∧ p = (cand.1, [cand.2])

lemma foldl_updStep_sound (a : Image) (l : List (ℕ × (ℕ × ℕ × ℕ × ℕ)))
    (hl : ∀ cand ∈ l, SoundCand a cand) :
    ∀ st, SoundRect a st → SoundRect a (l.foldl updStep st) := by
  induction l with
  | nil => intro st hst; exact hst
  | cons x t ih =>
    intro st hst
    rw [List.foldl_cons]
    refine ih (fun cand hcand => hl cand (List.mem_cons_of_mem x hcand))
      (updStep st x) ?_
    unfold updStep
    by_cases hlt : st.1 < x.1
    · rw [if_pos hlt]
      exact Or.inr ⟨x, hl x (List.mem_cons_self x t), rfl⟩
    · rw [if_neg hlt]
      exact hst

lemma foldl_updStep_area (l : List (ℕ × (ℕ × ℕ × ℕ × ℕ))) :
    ∀ st, (l.foldl updStep st).1 =
      l.foldl (fun acc cand => max acc cand.1) st.1 := by
  induction l with
  | nil => intro st; rfl
  | cons x t ih =>
    intro st
    rw [List.foldl_cons, List.foldl_cons, ih]
    have : (updStep st x).1 = max st.1 x.1 := by
      unfold updStep
      by_cases hlt : st.1 < x.1
      · rw [if_pos hlt]
        omega
      · rw [if_neg hlt]
        omega
    rw [this]

lemma foldl_max_ge (l : List (ℕ × (ℕ × ℕ × ℕ × ℕ))) :
    ∀ st, st ≤ l.foldl (fun acc cand => max acc cand.1) st ∧
      ∀ cand ∈ l, cand.1 ≤ l.foldl (fun acc cand => max acc cand.1) st := by
  induction l with
  | nil =>
    intro st
    exact ⟨le_refl st, by intro cand h; exact absurd h (List.not_mem_nil _)⟩
  | cons x t ih =>
    intro st
    rw [List.foldl_cons]
    rcases ih (max st x.1) with ⟨h1, h2⟩
    refine ⟨le_trans (le_max_left _ _) h1, ?_⟩
    intro cand hcand
    rcases List.mem_cons.mp hcand with h | h
    · rw [h]
      exact le_trans (le_max_right _ _) h1
    · exact h2 cand h

lemma foldl_max_mem (l : List (ℕ × (ℕ × ℕ × ℕ × ℕ))) :
    ∀ st, l.foldl (fun acc cand => max acc cand.1) st = st ∨
      ∃ cand ∈ l, l.foldl (fun acc cand => max acc cand.1) st = cand.1 := by
  induction l with
  | nil => intro st; exact Or.inl rfl
  | cons x t ih =>
    intro st
    rw [List.foldl_cons]
    rcases ih (max st x.1) with h | ⟨cand, hcand, h⟩
    · rcases le_or_lt x.1 st with hle | hlt
      · left
        rw [h]
        omega
      · right
        exact ⟨x, List.mem_cons_self x t, by rw [h]; omega⟩
    · right
      exact ⟨cand, List.mem_cons_of_mem x hcand, h⟩

/-- C9: on the 4×4 all-foreground component the algorithm returns area 16
with bounding coordinates (0, 0, 3, 3) covering the whole square; in
general the returned area is the maximum of the dynamic program's
(dh+1)·minw products over all non-skip pixels (r, c) and upward scan depths
dh < h[r][c] (0 when there is no candidate), and any recorded bounding
coordinates describe an actual in-bounds all-foreground rectangle of
exactly the returned area. -/
theorem C9_inscribed_rect_dp (a : Image) :
    get_inscribed_rect_area fourSquare = (16, [(0, 0, 3, 3)]) ∧
    (∀ cand ∈ rectCandidates a, cand.1 ≤ (get_inscribed_rect_area a).1) ∧
    ((get_inscribed_rect_area a).1 = 0 ∨
      ∃ cand ∈ rectCandidates a, (get_inscribed_rect_area a).1 = cand.1) ∧
    (∀ r0 c0 r1 c1, (get_inscribed_rect_area a).2 = [(r0, c0, r1, c1)] →
      r0 ≤ r1 ∧ r1 < a.length ∧ c0 ≤ c1 ∧ c1 < width a ∧
      (get_inscribed_rect_area a).1 = (r1 + 1 - r0) * (c1 + 1 - c0) ∧
      ∀ r', r0 ≤ r' → r' ≤ r1 → ∀ c', c0 ≤ c' → c' ≤ c1 →
        pix a r' c' ≠ 0) := by
  refine ⟨by decide, ?_, ?_, ?_⟩
  · intro cand hcand
    unfold get_inscribed_rect_area
    rw [foldl_updStep_area]
    exact (foldl_max_ge (rectCandidates a) 0).2 cand hcand
  · unfold get_inscribed_rect_area
    rw [foldl_updStep_area]
    rcases foldl_max_mem (rectCandidates a) 0 with h | ⟨cand, hcand, h⟩
    · exact Or.inl h
    · exact Or.inr ⟨cand, hcand, h⟩
  · intro r0 c0 r1 c1 hres
    have hsound : SoundRect a (get_inscribed_rect_area a) :=
      foldl_updStep_sound a (rectCandidates a) (rectCandidates_sound a)
        (0, []) (Or.inl rfl)
    rcases hsound with h | ⟨cand, hc, h⟩
    · rw [h] at hres
      exact absurd hres (by simp)
    · rcases hc with ⟨r0', c0', r1', c1', hcoords, hle1, hlt1, hle2, hlt2,
        harea, hrect⟩
      rw [h] at hres
      have hcoords' : cand.2 = (r0, c0, r1, c1) := by
        have h2 : [cand.2] = [(r0, c0, r1, c1)] := hres
        exact ((List.cons.injEq _ _ _ _).mp h2).1
      have heq : (r0', c0', r1', c1') = (r0, c0, r1, c1) :=
        hcoords.symm.trans hcoords'
      obtain ⟨hr0, hc0, hr1, hc1⟩ :
          r0' = r0 ∧ c0' = c0 ∧ r1' = r1 ∧ c1' = c1 := by
        simpa [Prod.ext_iff] using heq
      subst hr0
      subst hc0
      subst hr1
      subst hc1
      have harea' : (get_inscribed_rect_area a).1 = cand.1 := by rw [h]
      exact ⟨hle1, hlt1, hle2, hlt2, harea'.trans harea, hrect⟩

theorem C9_inscribed_rect_dp_witness :
    (get_inscribed_rect_area fourSquare).2 = [(0, 0, 3, 3)] ∧
    (0 ≤ 3 ∧ 3 < fourSquare.length ∧ 0 ≤ 3 ∧ 3 < width fourSquare ∧
      (get_inscribed_rect_area fourSquare).1 = (3 + 1 - 0) * (3 + 1 - 0) ∧
      ∀ r', 0 ≤ r' → r' ≤ 3 → ∀ c', 0 ≤ c' → c' ≤ 3 →
        pix fourSquare r' c' ≠ 0) :=
  ⟨by decide, (C9_inscribed_rect_dp fourSquare).2.2.2 0 0 3 3 (by decide)⟩

end MorphSim
